import Mathlib

/-!
Verification development for the diff engine of `zed_diff_extension`.

The Rust sources (`diff_core_part1.rs`, `diff_core_part2.rs`, `src/ui.rs`) are
shallowly embedded below.  Machine integers (`usize`) are modelled as `Nat`.
The two `usize` subtractions in `compute_char_diff` that may underflow (a
panic in a debug build, a wrap-around in release) are modelled by the checked
subtraction `sub?`, so an underflow surfaces as `none`; every other
subtraction in the sources is guarded by a positivity test on the same path.
Wall-clock time is modelled by an oracle `tout : Nat → Bool` giving the result
of the `start_time.elapsed() > timeout` check performed before each DP row.
The `DefaultHasher` surrogate of a line is modelled by the identity on the
preprocessed line (equal lines always hash equal; the model assumes the
absence of collisions, the accepted risk of the design), so surrogate equality
is equality of preprocessed lines.  Slice indexing `lines[start..end]` is
modelled with an explicit bounds guard returning `Option`.  Recursions that
Rust runs as `while` loops are given a `fuel` argument; every call site
supplies fuel that provably dominates the loop variant (`i + j`, strictly
decreasing), so the fuel-exhaustion branch is unreachable there.
-/

set_option linter.unusedVariables false

/-- `DiffOptions` from `diff_core_part1.rs`.  `max_computation_time_ms` is
kept for structural fidelity; the elapsed-time comparison it feeds is
abstracted by the `tout` oracle passed to `compute_diff`. -/
structure DiffOptions where
  ignore_whitespace : Bool
  ignore_case : Bool
  max_computation_time_ms : Nat
  compute_char_changes : Bool
  deriving DecidableEq, Repr

/-- `ChangeType` from `diff_core_part1.rs`. -/
inductive ChangeType where
  | Added
  | Deleted
  | Modified
  deriving DecidableEq, Repr

/-- `CharChange` from `diff_core_part1.rs`: character offsets and run lengths
within the text spanned by one Modified `LineChange`. -/
structure CharChange where
  original_start : Nat
  original_length : Nat
  modified_start : Nat
  modified_length : Nat
  deriving DecidableEq, Repr

/-- `LineChange` from `diff_core_part1.rs`. -/
structure LineChange where
  original_start : Nat
  original_end : Nat
  modified_start : Nat
  modified_end : Nat
  change_type : ChangeType
  char_changes : Option (List CharChange)
  deriving DecidableEq, Repr

/-- Checked `usize` subtraction: Rust `a - b` on `usize` is a program error
when `b > a` (panic in debug builds, wrap-around in release); the model
returns `none` there. -/
def sub? (a b : Nat) : Option Nat :=
  if b ≤ a then some (a - b) else none

/-- Whether the timeout check has fired before (or at) DP row `row`: the Rust
loop checks `start_time.elapsed() > timeout` at the top of each outer
iteration `i = 1..=m` and breaks out of the whole fill on the first firing,
so row `i` is left at zero iff the oracle fired at some row `k ≤ i`. -/
def timedOutBefore (tout : Nat → Bool) (row : Nat) : Bool :=
  (List.range' 1 row).any tout

/-- Fueled evaluation of one cell of the DP table built by
`compute_lcs_matrix` in `diff_core_part1.rs` (also reused, with the oracle
never firing, for the character-level table of `compute_char_diff`):
`dp[0][j] = dp[i][0] = 0`; rows cut off by the timeout stay zero; otherwise
`dp[i][j] = dp[i-1][j-1] + 1` on a surrogate match, else
`max (dp[i-1][j]) (dp[i][j-1])`.  The fuel dominates `i + j`, which strictly
decreases at every recursive call. -/
def lcsT [DecidableEq α] (tout : Nat → Bool) (xs ys : List α) : Nat → Nat → Nat → Nat
  | 0, _, _ => 0
  | fuel+1, i, j =>
    match i, j with
    | 0, _ => 0
    | _+1, 0 => 0
    | i'+1, j'+1 =>
      if timedOutBefore tout (i'+1) then 0
      else if xs.get? i' = ys.get? j' then lcsT tout xs ys fuel i' j' + 1
      else max (lcsT tout xs ys fuel i' (j'+1)) (lcsT tout xs ys fuel (i'+1) j')

/-- The DP table of `compute_lcs_matrix` as a function of the two indices. -/
def lcsTable [DecidableEq α] (tout : Nat → Bool) (xs ys : List α) : Nat → Nat → Nat :=
  fun i j => lcsT tout xs ys (i + j) i j

/-- Model of Rust `str::trim` (leading/trailing whitespace removed, interior
untouched).  `Char.isWhitespace` covers the ASCII whitespace used anywhere in
this development; Rust trims full Unicode whitespace. -/
def rustTrim (s : String) : String :=
  String.mk (((s.data.dropWhile Char.isWhitespace).reverse.dropWhile Char.isWhitespace).reverse)

/-- Model of Rust `str::to_lowercase` (ASCII case folding; Rust performs full
Unicode folding, which agrees on the ASCII inputs used here). -/
def rustToLower (s : String) : String :=
  String.mk (s.data.map Char.toLower)

/-- `preprocess_lines` from `diff_core_part1.rs`: trim if
`ignore_whitespace`, then case-fold if `ignore_case`. -/
def preprocess_lines (lines : List String) (options : DiffOptions) : List String :=
  lines.map fun line =>
    let processed := line
    let processed := if options.ignore_whitespace then rustTrim processed else processed
    let processed := if options.ignore_case then rustToLower processed else processed
    processed

/-- `hash_lines` from `diff_core_part1.rs`, modelled as the identity
surrogate: `DefaultHasher` sends equal strings to equal hashes and the design
accepts collisions as an unchecked risk, so the model identifies a surrogate
with the preprocessed line itself. -/
def hash_lines (lines : List String) : List String :=
  lines

/-- `should_merge` from `diff_core_part2.rs`. -/
def should_merge (a b : LineChange) : Bool :=
  (a.change_type == ChangeType.Deleted && b.change_type == ChangeType.Added)
    || (a.change_type == b.change_type && a.original_end == b.original_start
        && a.modified_end == b.modified_start)

/-- The in-place mutation of the accumulator inside the merge loop of
`merge_adjacent_changes`: extend both end fields, then promote
Deleted-followed-by-Added to Modified. -/
def mergeInto (current change : LineChange) : LineChange :=
  { current with
    original_end := change.original_end
    modified_end := change.modified_end
    change_type :=
      if current.change_type == ChangeType.Deleted
          && change.change_type == ChangeType.Added then
        ChangeType.Modified
      else current.change_type }

/-- The fold inside `merge_adjacent_changes` (`diff_core_part2.rs`): one
running accumulator, flushed whenever `should_merge` fails, with a final
flush. -/
def mergeGo (current : LineChange) : List LineChange → List LineChange
  | [] => [current]
  | change :: rest =>
    if should_merge current change then mergeGo (mergeInto current change) rest
    else current :: mergeGo change rest

/-- `merge_adjacent_changes` from `diff_core_part2.rs`. -/
def merge_adjacent_changes : List LineChange → List LineChange
  | [] => []
  | c :: rest => mergeGo c rest

/-- The `while i > 0 || j > 0` backtracking loop of `backtrack_changes`
(`diff_core_part2.rs`), producing the emitted operations in emission (push)
order.  The final `else => []` arm totalises the one fall-through the Rust
loop cannot reach (it would require `i = 0`, `j = 0` inside the loop). -/
def backtrackAux (tbl : Nat → Nat → Nat) (oh mh : List String) :
    Nat → Nat → Nat → List LineChange
  | 0, _, _ => []
  | fuel+1, i, j =>
    if i = 0 ∧ j = 0 then []
    else if 0 < i ∧ 0 < j ∧ oh.get? (i-1) = mh.get? (j-1) then
      backtrackAux tbl oh mh fuel (i-1) (j-1)
    else if 0 < i ∧ (j = 0 ∨ tbl i j = tbl (i-1) j) then
      { original_start := i-1, original_end := i, modified_start := j, modified_end := j,
        change_type := ChangeType.Deleted, char_changes := none }
        :: backtrackAux tbl oh mh fuel (i-1) j
    else if 0 < j then
      { original_start := i, original_end := i, modified_start := j-1, modified_end := j,
        change_type := ChangeType.Added, char_changes := none }
        :: backtrackAux tbl oh mh fuel i (j-1)
    else []

/-- `backtrack_changes` from `diff_core_part2.rs`: run the backtracking loop
from `(M, N)`, reverse the emitted list into chronological order, then merge
adjacent changes. -/
def backtrack_changes (tbl : Nat → Nat → Nat) (original_lines modified_lines : List String)
    (original_hashes modified_hashes : List String) : List LineChange :=
  merge_adjacent_changes
    ((backtrackAux tbl original_hashes modified_hashes
        (original_hashes.length + modified_hashes.length)
        original_hashes.length modified_hashes.length).reverse)

/-- Rust `slice.join("\n")`. -/
def joinNL : List String → String
  | [] => ""
  | [s] => s
  | s :: rest => s ++ "\n" ++ joinNL rest

/-- `get_line_range` from `diff_core_part2.rs`: `lines[start..end].join("\n")`.
The slice panics when `start > end` or `end > lines.len()`; the model returns
`none` there. -/
def get_line_range (lines : List String) (start stop : Nat) : Option String :=
  if start ≤ stop ∧ stop ≤ lines.length then
    some (joinNL ((lines.drop start).take (stop - start)))
  else none

/-- The flush performed after the character backtracking loop of
`compute_char_diff` exits (both indices are `0` there): if a deletion start
and an insertion start are both pending, push one `CharChange` whose lengths
are `i - del_start` and `j - ins_start` with `i = j = 0`. -/
def charFinalFlush (delS insS : Option Nat) : Option (List CharChange) :=
  match delS, insS with
  | some ds, some ins =>
    (sub? 0 ds).bind fun olen =>
      (sub? 0 ins).bind fun mlen =>
        some [{ original_start := ds, original_length := olen,
                modified_start := ins, modified_length := mlen }]
  | _, _ => some []

/-- The `while i > 0 || j > 0` character backtracking loop of
`compute_char_diff` (`diff_core_part2.rs`), tracking the pending
deletion-start and insertion-start, flushing on a matching character pair
(lengths `i - del_start`, `j - ins_start`, via `sub?`), and performing the
final flush at termination.  The result is in emission (push) order.  The
last arm decrements `j` exactly as the Rust bare `else` branch does; it is
reached only with `j > 0`. -/
def charBTAux (dp : Nat → Nat → Nat) (oc mc : List Char) :
    Nat → Nat → Nat → Option Nat → Option Nat → Option (List CharChange)
  | 0, i, j, delS, insS =>
    if i = 0 ∧ j = 0 then charFinalFlush delS insS else none
  | fuel+1, i, j, delS, insS =>
    if i = 0 ∧ j = 0 then charFinalFlush delS insS
    else if 0 < i ∧ 0 < j ∧ oc.get? (i-1) = mc.get? (j-1) then
      match delS, insS with
      | some ds, some ins =>
        (sub? i ds).bind fun olen =>
          (sub? j ins).bind fun mlen =>
            (charBTAux dp oc mc fuel (i-1) (j-1) none none).map
              (fun rest =>
                { original_start := ds, original_length := olen,
                  modified_start := ins, modified_length := mlen } :: rest)
      | dS, iS => charBTAux dp oc mc fuel (i-1) (j-1) dS iS
    else if 0 < i ∧ (j = 0 ∨ dp i j = dp (i-1) j) then
      charBTAux dp oc mc fuel (i-1) j (some (delS.getD (i-1))) insS
    else
      charBTAux dp oc mc fuel i (j-1) delS (some (insS.getD (j-1)))

/-- `compute_char_diff` from `diff_core_part2.rs`: character-level LCS table
(no timeout) plus the coalescing backtracking loop, with the push-order
result reversed at the end. -/
def compute_char_diff (original modified : String) : Option (List CharChange) :=
  let orig_chars := original.data
  let mod_chars := modified.data
  let m := orig_chars.length
  let n := mod_chars.length
  if m = 0 ∧ n = 0 then some []
  else
    let dp := lcsTable (fun _ => false) orig_chars mod_chars
    (charBTAux dp orig_chars mod_chars (m + n) m n none none).map List.reverse

/-- The per-change body of the loop in `compute_character_changes`: for a
Modified change, extract both text spans and attach the character diff;
other changes pass through unchanged. -/
def attachCharChanges (original_lines modified_lines : List String)
    (change : LineChange) : Option LineChange :=
  if change.change_type = ChangeType.Modified then
    (get_line_range original_lines change.original_start change.original_end).bind
      fun orig_text =>
        (get_line_range modified_lines change.modified_start change.modified_end).bind
          fun mod_text =>
            (compute_char_diff orig_text mod_text).map fun ccs =>
              { change with char_changes := some ccs }
  else some change

/-- `compute_character_changes` from `diff_core_part2.rs`: sequentially
process every change, failing as soon as one panic point is reached. -/
def compute_character_changes : List LineChange → List String → List String →
    Option (List LineChange)
  | [], _, _ => some []
  | change :: rest, ol, ml =>
    (attachCharChanges ol ml change).bind fun c =>
      (compute_character_changes rest ol ml).map fun cs => c :: cs

/-- `compute_diff` from `diff_core_part1.rs`: preprocess, hash, build the DP
table under the timeout oracle, backtrack + merge, then optionally attach
character-level changes. -/
def compute_diff (original_lines modified_lines : List String) (options : DiffOptions)
    (tout : Nat → Bool) : Option (List LineChange) :=
  let processed_original := preprocess_lines original_lines options
  let processed_modified := preprocess_lines modified_lines options
  let original_hashes := hash_lines processed_original
  let modified_hashes := hash_lines processed_modified
  let lcs_matrix := lcsTable tout original_hashes modified_hashes
  let changes := backtrack_changes lcs_matrix original_lines modified_lines
    original_hashes modified_hashes
  if options.compute_char_changes then
    compute_character_changes changes original_lines modified_lines
  else
    some changes

/-- `format_range` from `src/ui.rs`. -/
def format_range (start stop : Nat) : String :=
  let count := stop - start
  if count = 0 then toString start ++ ",0"
  else if count = 1 then toString (start + 1)
  else toString (start + 1) ++ "," ++ toString count

/-- An atomic operation of the Edit Script Recoverer as the spec (§4.4)
describes it: a single-unit Deleted operation carries the original index
`i - 1` (and the walk's `j`, which fixes its modified-side anchor); a
single-unit Added operation carries the modified index `j - 1` (and the
walk's `i`). -/
inductive SpecOp where
  | deleted (originalIndex walkJ : Nat)
  | added (walkI modifiedIndex : Nat)
  deriving DecidableEq, Repr

/-- The single-unit `LineChange` corresponding to a spec-level atomic
operation. -/
def specOpToChange : SpecOp → LineChange
  | .deleted oi wj => ⟨oi, oi+1, wj, wj, ChangeType.Deleted, none⟩
  | .added wi mi => ⟨wi, wi, mi, mi+1, ChangeType.Added, none⟩

/-- Modelled from the spec (§4.4 wording): starting from `(i, j)`, if both
indices are positive and the units at `i-1`, `j-1` match, consume both with
no emitted operation; otherwise if `i > 0` and either `j = 0` or
`table[i][j] = table[i-1][j]`, emit a single-unit Deleted operation for
original index `i-1` and decrement `i`; otherwise (`j > 0`) emit a
single-unit Added operation for modified index `j-1` and decrement `j`;
terminate when both indices reach `0`.  The list is produced in end-to-start
(emission) order. -/
def backtrackPolicySpec (tbl : Nat → Nat → Nat) (oh mh : List String) :
    Nat → Nat → Nat → List SpecOp
  | 0, _, _ => []
  | fuel+1, i, j =>
    if i = 0 ∧ j = 0 then []
    else if 0 < i ∧ 0 < j ∧ oh.get? (i-1) = mh.get? (j-1) then
      backtrackPolicySpec tbl oh mh fuel (i-1) (j-1)
    else if 0 < i ∧ (j = 0 ∨ tbl i j = tbl (i-1) j) then
      SpecOp.deleted (i-1) j :: backtrackPolicySpec tbl oh mh fuel (i-1) j
    else if 0 < j then
      SpecOp.added i (j-1) :: backtrackPolicySpec tbl oh mh fuel i (j-1)
    else []

/-- Well-formed, in-bounds ranges of a `LineChange` with respect to an
original sequence of length `m` and a modified sequence of length `n`. -/
def RangesOk (m n : Nat) (c : LineChange) : Prop :=
  c.original_start ≤ c.original_end ∧ c.original_end ≤ m ∧
    c.modified_start ≤ c.modified_end ∧ c.modified_end ≤ n

instance (m n : Nat) (c : LineChange) : Decidable (RangesOk m n c) := by
  unfold RangesOk; infer_instance

/-- Options with every flag off (the values of the repository's own tests). -/
def optsOff : DiffOptions := ⟨false, false, 5000, false⟩

/-- Options requesting character-level changes only. -/
def optsWithChar : DiffOptions := ⟨false, false, 5000, true⟩

/-- Options with `ignore_case` only. -/
def optsIgnoreCase : DiffOptions := ⟨false, true, 5000, false⟩

/-- Options with `ignore_whitespace` only. -/
def optsIgnoreWs : DiffOptions := ⟨true, false, 5000, false⟩

/-- Options with both normalization flags set. -/
def optsBothNorm : DiffOptions := ⟨true, true, 5000, false⟩

/-- Timeout oracle of a generous budget: the elapsed-time check never fires. -/
def noTimeout : Nat → Bool := fun _ => false

/-- Timeout oracle of a zero budget: the elapsed-time check fires before
every row, leaving the DP table all-zero. -/
def alwaysTimeout : Nat → Bool := fun _ => true

/-- On two identical surrogate sequences the backtracking loop, entered at
equal indices, only ever takes the silent match branch and emits nothing. -/
lemma backtrackAux_self (tbl : Nat → Nat → Nat) (L : List String) :
    ∀ fuel k, backtrackAux tbl L L fuel k k = [] := by
  intro fuel
  induction fuel with
  | zero => intro k; rfl
  | succ fuel ih =>
    intro k
    cases k with
    | zero => simp [backtrackAux]
    | succ k => simp [backtrackAux, ih]

/-- Preprocessing with both normalization flags off is the identity. -/
lemma preprocess_lines_id (L : List String) (mct : Nat) (ccs : Bool) :
    preprocess_lines L ⟨false, false, mct, ccs⟩ = L := by
  simp [preprocess_lines]

/-- C7: for every line sequence `L` and every `DiffOptions` with
`ignore_case = false` and `ignore_whitespace = false` (any time budget, any
`compute_char_changes`), `compute_diff L L opts` returns the empty change
list. -/
theorem c7_identity : ∀ (L : List String) (mct : Nat) (ccs : Bool) (tout : Nat → Bool),
    compute_diff L L ⟨false, false, mct, ccs⟩ tout = some [] := by
  intro L mct ccs tout
  unfold compute_diff backtrack_changes
  rw [preprocess_lines_id]
  show (if ccs = true then _ else _) = _
  rw [hash_lines, backtrackAux_self]
  cases ccs <;> simp [merge_adjacent_changes, compute_character_changes]

lemma backtrackAux_eq_policy (tbl : Nat → Nat → Nat) (oh mh : List String) :
    ∀ fuel i j, backtrackAux tbl oh mh fuel i j =
      (backtrackPolicySpec tbl oh mh fuel i j).map specOpToChange := by
  intro fuel
  induction fuel with
  | zero => intro i j; rfl
  | succ fuel ih =>
    intro i j
    simp only [backtrackAux, backtrackPolicySpec]
    split_ifs <;> simp [ih, specOpToChange] <;> omega

lemma should_merge_iff (a b : LineChange) :
    should_merge a b = true ↔
      ((a.change_type = ChangeType.Deleted ∧ b.change_type = ChangeType.Added) ∨
        (a.change_type = b.change_type ∧ a.original_end = b.original_start ∧
          a.modified_end = b.modified_start)) := by
  simp [should_merge, and_assoc]

lemma mergeInto_change_type (cur ch : LineChange) :
    (mergeInto cur ch).change_type = cur.change_type ∨
      (cur.change_type = ChangeType.Deleted ∧ ch.change_type = ChangeType.Added ∧
        (mergeInto cur ch).change_type = ChangeType.Modified) := by
  by_cases h1 : cur.change_type = ChangeType.Deleted <;>
    by_cases h2 : ch.change_type = ChangeType.Added <;>
      simp [mergeInto, h1, h2]

/-- The head of `mergeGo cur l` keeps `cur`'s start fields, and its type is
`cur`'s, possibly promoted from Deleted to Modified. -/
lemma mergeGo_head : ∀ (l : List LineChange) (cur : LineChange),
    ∃ b tl, mergeGo cur l = b :: tl ∧
      b.original_start = cur.original_start ∧ b.modified_start = cur.modified_start ∧
      (b.change_type = cur.change_type ∨
        (cur.change_type = ChangeType.Deleted ∧ b.change_type = ChangeType.Modified)) := by
  intro l
  induction l with
  | nil => intro cur; exact ⟨cur, [], rfl, rfl, rfl, Or.inl rfl⟩
  | cons ch rest ih =>
    intro cur
    by_cases h : should_merge cur ch
    · obtain ⟨b, tl, hb, h1, h2, h3⟩ := ih (mergeInto cur ch)
      refine ⟨b, tl, ?_, h1, h2, ?_⟩
      · simpa [mergeGo, h] using hb
      · rcases h3 with h3 | ⟨h4, h5⟩
        · rcases mergeInto_change_type cur ch with hm | ⟨hd, ha, hm⟩
          · exact Or.inl (h3.trans hm)
          · exact Or.inr ⟨hd, h3.trans hm⟩
        · rcases mergeInto_change_type cur ch with hm | ⟨hd, ha, hm⟩
          · exact Or.inr ⟨hm.symm.trans h4, h5⟩
          · rw [hm] at h4; cases h4
    · refine ⟨cur, mergeGo ch rest, ?_, rfl, rfl, Or.inl rfl⟩
      simp [mergeGo, h]

/-- Adjacent elements of a merger output satisfy the merge predicate only if
both are Modified. -/
lemma mergeGo_chain (l : List LineChange) : ∀ (cur : LineChange),
    List.Chain' (fun a b => should_merge a b = true →
      a.change_type = ChangeType.Modified ∧ b.change_type = ChangeType.Modified)
      (mergeGo cur l) := by
  induction l with
  | nil => intro cur; simp [mergeGo]
  | cons ch rest ih =>
    intro cur
    by_cases h : should_merge cur ch
    · simpa [mergeGo, h] using ih (mergeInto cur ch)
    · obtain ⟨b, tl, hb, h1, h2, h3⟩ := mergeGo_head rest ch
      have hchain := ih ch
      rw [hb] at hchain
      simp only [mergeGo, if_neg h]
      rw [hb]
      refine List.chain'_cons.mpr ⟨?_, hchain⟩
      intro hsm
      rw [should_merge_iff] at hsm
      rcases hsm with ⟨hcd, hba⟩ | ⟨hty, hoe, hme⟩
      · rcases h3 with h3 | ⟨hchd, h3m⟩
        · exact absurd ((should_merge_iff cur ch).mpr (Or.inl ⟨hcd, h3.symm.trans hba⟩)) h
        · rw [h3m] at hba; cases hba
      · rcases h3 with h3 | ⟨hchd, h3m⟩
        · exact absurd ((should_merge_iff cur ch).mpr
            (Or.inr ⟨hty.trans h3, hoe.trans h1, hme.trans h2⟩)) h
        · exact ⟨hty.trans h3m, h3m⟩

lemma RangesOk.mono {m n m' n' : Nat} {c : LineChange} (hm : m ≤ m') (hn : n ≤ n')
    (h : RangesOk m n c) : RangesOk m' n' c :=
  ⟨h.1, h.2.1.trans hm, h.2.2.1, h.2.2.2.trans hn⟩

/-- Every operation emitted by the backtracking loop started at `(i, j)` has
well-formed ranges bounded by `i` and `j`, and the push-order list has
componentwise non-increasing end fields (the walk only moves down-left). -/
lemma backtrackAux_inv (tbl : Nat → Nat → Nat) (oh mh : List String) :
    ∀ fuel i j,
      (∀ c ∈ backtrackAux tbl oh mh fuel i j, RangesOk i j c) ∧
      List.Chain' (fun a b => b.original_end ≤ a.original_end ∧ b.modified_end ≤ a.modified_end)
        (backtrackAux tbl oh mh fuel i j) := by
  intro fuel
  induction fuel with
  | zero =>
    intro i j
    constructor
    · intro c hc; simp [backtrackAux] at hc
    · simp [backtrackAux]
  | succ fuel ih =>
    intro i j
    simp only [backtrackAux]
    split_ifs with h1 h2 h3 h4
    · constructor
      · intro c hc; simp at hc
      · simp
    · obtain ⟨hm, hch⟩ := ih (i-1) (j-1)
      exact ⟨fun c hc => (hm c hc).mono (Nat.sub_le i 1) (Nat.sub_le j 1), hch⟩
    · obtain ⟨hm, hch⟩ := ih (i-1) j
      constructor
      · intro c hc
        rcases List.mem_cons.mp hc with rfl | hc
        · exact ⟨Nat.sub_le i 1, le_refl i, le_refl j, le_refl j⟩
        · exact (hm c hc).mono (Nat.sub_le i 1) (le_refl j)
      · refine List.chain'_cons'.mpr ⟨?_, hch⟩
        intro b hb
        have hh := hm b (List.mem_of_mem_head? hb)
        exact ⟨hh.2.1.trans (Nat.sub_le i 1), hh.2.2.2⟩
    · obtain ⟨hm, hch⟩ := ih i (j-1)
      constructor
      · intro c hc
        rcases List.mem_cons.mp hc with rfl | hc
        · exact ⟨le_refl i, le_refl i, Nat.sub_le j 1, le_refl j⟩
        · exact (hm c hc).mono (le_refl i) (Nat.sub_le j 1)
      · refine List.chain'_cons'.mpr ⟨?_, hch⟩
        intro b hb
        have hh := hm b (List.mem_of_mem_head? hb)
        exact ⟨hh.2.1, hh.2.2.2.trans (Nat.sub_le j 1)⟩
    · constructor
      · intro c hc; simp at hc
      · simp

/-- The merge fold preserves well-formed, in-bounds ranges, provided the
chronological input has componentwise non-decreasing end fields. -/
lemma mergeGo_ranges (m n : Nat) :
    ∀ (l : List LineChange) (cur : LineChange),
      RangesOk m n cur →
      (∀ c ∈ l, RangesOk m n c) →
      List.Chain' (fun a b => a.original_end ≤ b.original_end ∧ a.modified_end ≤ b.modified_end)
        (cur :: l) →
      ∀ c ∈ mergeGo cur l, RangesOk m n c := by
  intro l
  induction l with
  | nil =>
    intro cur hcur _ _ c hc
    simp [mergeGo] at hc; subst hc; exact hcur
  | cons ch rest ih =>
    intro cur hcur hl hchain c hc
    have hrel : cur.original_end ≤ ch.original_end ∧ cur.modified_end ≤ ch.modified_end :=
      (List.chain'_cons.mp hchain).1
    have hrest := (List.chain'_cons.mp hchain).2
    by_cases h : should_merge cur ch
    · simp only [mergeGo, if_pos h] at hc
      refine ih (mergeInto cur ch) ?_ (fun c' hc' => hl c' (List.mem_cons_of_mem _ hc')) ?_ c hc
      · have hch := hl ch (List.mem_cons_self _ _)
        exact ⟨hcur.1.trans hrel.1, hch.2.1, hcur.2.2.1.trans hrel.2, hch.2.2.2⟩
      · refine List.chain'_cons'.mpr ⟨?_, (List.chain'_cons'.mp hrest).2⟩
        intro b hb
        exact (List.chain'_cons'.mp hrest).1 b hb
    · simp only [mergeGo, if_neg h] at hc
      rcases List.mem_cons.mp hc with rfl | hc
      · exact hcur
      · exact ih ch (hl ch (List.mem_cons_self _ _))
          (fun c' hc' => hl c' (List.mem_cons_of_mem _ hc')) hrest c hc

/-- Every change produced by `backtrack_changes` has well-formed ranges,
in bounds of the two hash sequences' lengths. -/
lemma backtrack_changes_ranges (tbl : Nat → Nat → Nat) (ol ml oh mh : List String) :
    ∀ c ∈ backtrack_changes tbl ol ml oh mh, RangesOk oh.length mh.length c := by
  intro c hc
  unfold backtrack_changes at hc
  obtain ⟨hm, hch⟩ := backtrackAux_inv tbl oh mh (oh.length + mh.length) oh.length mh.length
  have hasc : List.Chain'
      (fun a b => a.original_end ≤ b.original_end ∧ a.modified_end ≤ b.modified_end)
      (backtrackAux tbl oh mh (oh.length + mh.length) oh.length mh.length).reverse := by
    rw [List.chain'_reverse]
    exact hch
  revert hc
  cases hrev : (backtrackAux tbl oh mh (oh.length + mh.length) oh.length mh.length).reverse with
  | nil => intro hc; simp [merge_adjacent_changes] at hc
  | cons c0 rest =>
    intro hc
    have hmem : ∀ x ∈ c0 :: rest, RangesOk oh.length mh.length x := by
      intro x hx
      apply hm
      rw [← List.mem_reverse, hrev]
      exact hx
    rw [hrev] at hasc
    exact mergeGo_ranges oh.length mh.length rest c0
      (hmem c0 (List.mem_cons_self _ _))
      (fun x hx => hmem x (List.mem_cons_of_mem _ hx)) hasc c hc

lemma attachCharChanges_fields {ol ml : List String} {ch c : LineChange}
    (h : attachCharChanges ol ml ch = some c) :
    c.original_start = ch.original_start ∧ c.original_end = ch.original_end ∧
      c.modified_start = ch.modified_start ∧ c.modified_end = ch.modified_end := by
  unfold attachCharChanges at h
  split_ifs at h with hm
  · rcases Option.bind_eq_some.mp h with ⟨ot, hot, h⟩
    rcases Option.bind_eq_some.mp h with ⟨mt, hmt, h⟩
    rcases Option.map_eq_some'.mp h with ⟨cc, hcc, h⟩
    subst h
    exact ⟨rfl, rfl, rfl, rfl⟩
  · cases h
    exact ⟨rfl, rfl, rfl, rfl⟩

lemma compute_character_changes_fields :
    ∀ (cs : List LineChange) (ol ml : List String) (cs' : List LineChange),
      compute_character_changes cs ol ml = some cs' →
      ∀ c' ∈ cs', ∃ c ∈ cs,
        c'.original_start = c.original_start ∧ c'.original_end = c.original_end ∧
          c'.modified_start = c.modified_start ∧ c'.modified_end = c.modified_end := by
  intro cs
  induction cs with
  | nil =>
    intro ol ml cs' h c' hc'
    simp only [compute_character_changes] at h
    cases h
    simp at hc'
  | cons ch rest ih =>
    intro ol ml cs' h c' hc'
    simp only [compute_character_changes] at h
    rcases Option.bind_eq_some.mp h with ⟨c0, hc0, h⟩
    rcases Option.map_eq_some'.mp h with ⟨cs0, hcs0, h⟩
    subst h
    rcases List.mem_cons.mp hc' with rfl | hc'
    · exact ⟨ch, List.mem_cons_self _ _, attachCharChanges_fields hc0⟩
    · obtain ⟨c, hcm, hf⟩ := ih ol ml cs0 hcs0 c' hc'
      exact ⟨c, List.mem_cons_of_mem _ hcm, hf⟩

lemma get_line_range_isSome {lines : List String} {a b : Nat}
    (h1 : a ≤ b) (h2 : b ≤ lines.length) : (get_line_range lines a b).isSome := by
  simp [get_line_range, h1, h2]

lemma preprocess_lines_length (lines : List String) (options : DiffOptions) :
    (preprocess_lines lines options).length = lines.length := by
  simp [preprocess_lines]

/-- C10: every `LineChange` returned by `compute_diff` has well-formed,
in-bounds ranges (`original_start ≤ original_end ≤ |original|` and likewise on
the modified side); consequently the character-diff stage's slice extraction
(`get_line_range`) over any returned change's ranges succeeds and never
indexes past either sequence. -/
theorem c10_ranges_in_bounds : ∀ (ol ml : List String) (options : DiffOptions) (tout : Nat → Bool)
    (cs : List LineChange), compute_diff ol ml options tout = some cs →
    ∀ c ∈ cs, RangesOk ol.length ml.length c ∧
      (get_line_range ol c.original_start c.original_end).isSome ∧
      (get_line_range ml c.modified_start c.modified_end).isSome := by
  intro ol ml options tout cs h c hc
  simp only [compute_diff] at h
  have hbr := backtrack_changes_ranges
    (lcsTable tout (hash_lines (preprocess_lines ol options))
      (hash_lines (preprocess_lines ml options))) ol ml
    (hash_lines (preprocess_lines ol options)) (hash_lines (preprocess_lines ml options))
  rw [hash_lines, hash_lines, preprocess_lines_length, preprocess_lines_length] at hbr
  split_ifs at h with hccs
  · obtain ⟨c0, hc0m, hf⟩ := compute_character_changes_fields _ ol ml cs h c hc
    have hro : RangesOk ol.length ml.length c := by
      have := hbr c0 hc0m
      exact ⟨hf.1 ▸ hf.2.1 ▸ this.1, hf.2.1 ▸ this.2.1,
        hf.2.2.1 ▸ hf.2.2.2 ▸ this.2.2.1, hf.2.2.2 ▸ this.2.2.2⟩
    exact ⟨hro, get_line_range_isSome hro.1 hro.2.1, get_line_range_isSome hro.2.2.1 hro.2.2.2⟩
  · cases h
    have hro := hbr c hc
    exact ⟨hro, get_line_range_isSome hro.1 hro.2.1, get_line_range_isSome hro.2.2.1 hro.2.2.2⟩

/-- Under the zero-budget oracle the whole DP table is zero: the check fires
before row 1 and every cell of a positive row is cut off, while border cells
are zero by construction. -/
lemma lcsTable_zero (xs ys : List String) : ∀ i j, lcsTable alwaysTimeout xs ys i j = 0 := by
  intro i j
  unfold lcsTable
  cases i with
  | zero =>
    cases j with
    | zero => rfl
    | succ j => simp [lcsT]
  | succ i =>
    cases j with
    | zero => simp [lcsT]
    | succ j =>
      show lcsT alwaysTimeout xs ys (i + 1 + (j + 1)) (i + 1) (j + 1) = 0
      have : i + 1 + (j + 1) = (i + 1 + j) + 1 := rfl
      rw [this, lcsT]
      simp [timedOutBefore, alwaysTimeout, List.range'_succ]

/-- With `i = 0` the backtracking loop emits exactly the Added operations for
modified indices `j-1, j-2, ..., 0`, in push order. -/
lemma c4_addPhase (tbl : Nat → Nat → Nat) (oh mh : List String) :
    ∀ j fuel, j ≤ fuel →
      backtrackAux tbl oh mh fuel 0 j =
        ((List.range j).map
          (fun mi => (⟨0, 0, mi, mi+1, ChangeType.Added, none⟩ : LineChange))).reverse := by
  intro j
  induction j with
  | zero =>
    intro fuel _
    cases fuel with
    | zero => rfl
    | succ f => simp [backtrackAux]
  | succ j ihj =>
    intro fuel hf
    cases fuel with
    | zero => omega
    | succ f =>
      rw [backtrackAux]
      rw [if_neg (by omega), if_neg (by simp), if_neg (by simp), if_pos (by omega)]
      simp only [Nat.add_sub_cancel]
      rw [ihj f (by omega)]
      simp [List.range_succ]

/-- With an all-zero table and no common surrogate, the backtracking loop
first deletes every original unit (at modified anchor `mh.length`) and then
adds every modified unit, in push order. -/
lemma c4_delPhase (tbl : Nat → Nat → Nat) (oh mh : List String) :
    ∀ i fuel, i + mh.length ≤ fuel → i ≤ oh.length →
      (∀ a ∈ oh, a ∉ mh) → (∀ i' j', tbl i' j' = 0) →
      backtrackAux tbl oh mh fuel i mh.length =
        ((List.range i).map
          (fun oi => (⟨oi, oi+1, mh.length, mh.length, ChangeType.Deleted, none⟩ : LineChange))).reverse
          ++ ((List.range mh.length).map
            (fun mi => (⟨0, 0, mi, mi+1, ChangeType.Added, none⟩ : LineChange))).reverse := by
  intro i
  induction i with
  | zero =>
    intro fuel hf _ _ _
    rw [c4_addPhase tbl oh mh mh.length fuel (by omega)]
    simp
  | succ i ihi =>
    intro fuel hf hle hno htbl
    cases fuel with
    | zero => omega
    | succ f =>
      have hmatch : ¬(0 < i + 1 ∧ 0 < mh.length ∧ oh.get? (i + 1 - 1) = mh.get? (mh.length - 1)) := by
        rintro ⟨-, hN, heq⟩
        have hi : i < oh.length := by omega
        have hn : mh.length - 1 < mh.length := by omega
        simp only [Nat.add_sub_cancel] at heq
        rw [List.get?_eq_get hi, List.get?_eq_get hn] at heq
        exact hno _ (List.get_mem oh i hi) (Option.some.inj heq ▸ List.get_mem mh _ hn)
      rw [backtrackAux]
      rw [if_neg (by omega), if_neg hmatch,
        if_pos (by exact ⟨by omega, Or.inr (by rw [htbl, htbl])⟩)]
      simp only [Nat.add_sub_cancel]
      rw [ihi f (by omega) (by omega) hno htbl]
      simp [List.range_succ]

/-- Folding a run of contiguous Added atoms into an Added accumulator extends
its modified end across the run. -/
lemma mergeGo_addRun : ∀ (n j : Nat) (rest : List LineChange),
    mergeGo ⟨0, 0, 0, j, ChangeType.Added, none⟩
      (((List.range' j n).map
        (fun mi => (⟨0, 0, mi, mi+1, ChangeType.Added, none⟩ : LineChange))) ++ rest)
      = mergeGo ⟨0, 0, 0, j + n, ChangeType.Added, none⟩ rest := by
  intro n
  induction n with
  | zero => intro j rest; simp [List.range']
  | succ n ihn =>
    intro j rest
    simp only [List.range'_succ, List.map_cons, List.cons_append]
    rw [mergeGo]
    have hsm : should_merge ⟨0, 0, 0, j, ChangeType.Added, none⟩
        ⟨0, 0, j, j+1, ChangeType.Added, none⟩ = true := by
      simp [should_merge]
    rw [if_pos hsm]
    have hmi : mergeInto ⟨0, 0, 0, j, ChangeType.Added, none⟩
        ⟨0, 0, j, j+1, ChangeType.Added, none⟩ = ⟨0, 0, 0, j+1, ChangeType.Added, none⟩ := rfl
    rw [hmi, ihn (j+1) rest]
    have : j + 1 + n = j + (n + 1) := by omega
    rw [this]

/-- Folding a run of contiguous Deleted atoms into a Deleted accumulator
extends its original end across the run. -/
lemma mergeGo_delRun : ∀ (n k N : Nat),
    mergeGo ⟨0, k, N, N, ChangeType.Deleted, none⟩
      ((List.range' k n).map
        (fun oi => (⟨oi, oi+1, N, N, ChangeType.Deleted, none⟩ : LineChange)))
      = [⟨0, k + n, N, N, ChangeType.Deleted, none⟩] := by
  intro n
  induction n with
  | zero => intro k N; simp [List.range', mergeGo]
  | succ n ihn =>
    intro k N
    simp only [List.range'_succ, List.map_cons]
    rw [mergeGo]
    have hsm : should_merge ⟨0, k, N, N, ChangeType.Deleted, none⟩
        ⟨k, k+1, N, N, ChangeType.Deleted, none⟩ = true := by
      simp [should_merge]
    rw [if_pos hsm]
    have hmi : mergeInto ⟨0, k, N, N, ChangeType.Deleted, none⟩
        ⟨k, k+1, N, N, ChangeType.Deleted, none⟩ = ⟨0, k+1, N, N, ChangeType.Deleted, none⟩ := rfl
    rw [hmi, ihn (k+1) N]
    have : k + 1 + n = k + (n + 1) := by omega
    rw [this]

/-- Merging the zero-budget edit script (all Added, then all Deleted) never
produces a Modified change: the Deleted-then-Added promotion rule needs a
Deleted accumulator followed by an Added atom, which this script never has. -/
lemma merge_script_no_modified (M N : Nat) :
    ∀ c ∈ merge_adjacent_changes
        (((List.range N).map fun mi => (⟨0, 0, mi, mi+1, ChangeType.Added, none⟩ : LineChange)) ++
          ((List.range M).map fun oi =>
            (⟨oi, oi+1, N, N, ChangeType.Deleted, none⟩ : LineChange))),
      c.change_type ≠ ChangeType.Modified := by
  intro c hc
  rw [List.range_eq_range', List.range_eq_range'] at hc
  cases N with
  | zero =>
    cases M with
    | zero => simp [merge_adjacent_changes, List.range'] at hc
    | succ m =>
      rw [List.range'_succ] at hc
      simp only [List.range', List.map_nil, List.map_cons, List.nil_append,
        merge_adjacent_changes] at hc
      rw [show (1 : Nat) = 0 + 1 from rfl, mergeGo_delRun m 1 0] at hc
      simp at hc
      rw [hc]
      simp
  | succ n =>
    rw [List.range'_succ 0 n] at hc
    simp only [List.map_cons, List.cons_append, merge_adjacent_changes] at hc
    rw [show (1 : Nat) = 0 + 1 from rfl, mergeGo_addRun n 1] at hc
    cases M with
    | zero =>
      simp only [List.range', List.map_nil, List.append_nil, mergeGo] at hc
      simp at hc
      rw [hc]
      simp
    | succ m =>
      rw [List.range'_succ] at hc
      simp only [List.map_cons, mergeGo] at hc
      rw [if_neg (by simp [should_merge])] at hc
      rw [mergeGo_delRun m 1 (n+1)] at hc
      simp at hc
      rcases hc with hc | hc <;> rw [hc] <;> simp

/-- When no change is Modified, the character-diff stage is the identity. -/
lemma compute_character_changes_id : ∀ (cs : List LineChange) (ol ml : List String),
    (∀ c ∈ cs, c.change_type ≠ ChangeType.Modified) →
    compute_character_changes cs ol ml = some cs := by
  intro cs
  induction cs with
  | nil => intro ol ml _; rfl
  | cons ch rest ih =>
    intro ol ml h
    simp only [compute_character_changes]
    rw [attachCharChanges, if_neg (h ch (List.mem_cons_self _ _))]
    rw [ih ol ml (fun c hc => h c (List.mem_cons_of_mem _ hc))]
    rfl

/-- With `i = 0` the backtracking loop can only take the Added branch, so
every emitted operation is Added. -/
lemma backtrackAux_i0_added (tbl : Nat → Nat → Nat) (oh mh : List String) :
    ∀ fuel j, ∀ c ∈ backtrackAux tbl oh mh fuel 0 j, c.change_type = ChangeType.Added := by
  intro fuel
  induction fuel with
  | zero => intro j c hc; simp [backtrackAux] at hc
  | succ fuel ih =>
    intro j c hc
    by_cases hj : j = 0
    · subst hj; simp [backtrackAux] at hc
    · rw [backtrackAux] at hc
      rw [if_neg (by omega), if_neg (by simp), if_neg (by simp), if_pos (by omega)] at hc
      rcases List.mem_cons.mp hc with rfl | hc
      · rfl
      · exact ih (j-1) c hc

/-- Over an all-zero table the backtracking loop emits, in push order, first
a block of Deleted operations (while `i > 0` the Deleted guard
`tbl i j = tbl (i-1) j` always holds) and then a block of Added operations
(emitted only once `i = 0`). -/
lemma backtrackAux_zero_shape (tbl : Nat → Nat → Nat) (oh mh : List String)
    (htbl : ∀ i' j', tbl i' j' = 0) :
    ∀ fuel i j, ∃ dels adds,
      backtrackAux tbl oh mh fuel i j = dels ++ adds ∧
      (∀ c ∈ dels, c.change_type = ChangeType.Deleted) ∧
      (∀ c ∈ adds, c.change_type = ChangeType.Added) := by
  intro fuel
  induction fuel with
  | zero => intro i j; exact ⟨[], [], rfl, by simp, by simp⟩
  | succ fuel ih =>
    intro i j
    rw [backtrackAux]
    split_ifs with h1 h2 h3 h4
    · exact ⟨[], [], rfl, by simp, by simp⟩
    · exact ih (i-1) (j-1)
    · obtain ⟨dels, adds, heq, hd, ha⟩ := ih (i-1) j
      refine ⟨(⟨i-1, i, j, j, ChangeType.Deleted, none⟩ : LineChange) :: dels,
        adds, by rw [heq, List.cons_append], ?_, ha⟩
      intro c hc
      rcases List.mem_cons.mp hc with rfl | hc
      · rfl
      · exact hd c hc
    · have hi0 : i = 0 := by
        by_contra hne
        exact h3 ⟨by omega, Or.inr (by rw [htbl, htbl])⟩
      subst hi0
      refine ⟨[], (⟨0, 0, j-1, j, ChangeType.Added, none⟩ : LineChange)
          :: backtrackAux tbl oh mh fuel 0 (j-1), rfl, by simp, ?_⟩
      intro c hc
      rcases List.mem_cons.mp hc with rfl | hc
      · rfl
      · exact backtrackAux_i0_added tbl oh mh fuel (j-1) c hc
    · exact ⟨[], [], rfl, by simp, by simp⟩

/-- Folding only Deleted atoms into a non-Modified accumulator never promotes
to Modified (promotion needs an Added atom). -/
lemma mergeGo_dels_no_modified : ∀ (dels : List LineChange) (cur : LineChange),
    (∀ c ∈ dels, c.change_type = ChangeType.Deleted) →
    cur.change_type ≠ ChangeType.Modified →
    ∀ c ∈ mergeGo cur dels, c.change_type ≠ ChangeType.Modified := by
  intro dels
  induction dels with
  | nil =>
    intro cur _ hcur c hc
    simp [mergeGo] at hc; subst hc; exact hcur
  | cons d rest ih =>
    intro cur hd hcur c hc
    by_cases h : should_merge cur d
    · simp only [mergeGo, if_pos h] at hc
      refine ih (mergeInto cur d) (fun c' hc' => hd c' (List.mem_cons_of_mem _ hc')) ?_ c hc
      rcases mergeInto_change_type cur d with hm | ⟨-, hda, -⟩
      · rw [hm]; exact hcur
      · rw [hd d (List.mem_cons_self _ _)] at hda; simp at hda
    · simp only [mergeGo, if_neg h] at hc
      rcases List.mem_cons.mp hc with rfl | hc
      · exact hcur
      · exact ih d (fun c' hc' => hd c' (List.mem_cons_of_mem _ hc'))
          (by rw [hd d (List.mem_cons_self _ _)]; simp) c hc

/-- Folding an all-Added block followed by an all-Deleted block, starting
from an Added accumulator, never produces a Modified change: the promotion
rule needs a Deleted accumulator followed by an Added atom, and in this
chronological shape no Added atom ever follows a Deleted one. -/
lemma mergeGo_adds_dels_no_modified : ∀ (adds dels : List LineChange) (cur : LineChange),
    (∀ c ∈ adds, c.change_type = ChangeType.Added) →
    (∀ c ∈ dels, c.change_type = ChangeType.Deleted) →
    cur.change_type = ChangeType.Added →
    ∀ c ∈ mergeGo cur (adds ++ dels), c.change_type ≠ ChangeType.Modified := by
  intro adds
  induction adds with
  | nil =>
    intro dels cur _ hd hcur
    exact mergeGo_dels_no_modified dels cur hd (by rw [hcur]; simp)
  | cons a rest ih =>
    intro dels cur ha hd hcur c hc
    rw [List.cons_append] at hc
    by_cases h : should_merge cur a
    · simp only [mergeGo, if_pos h] at hc
      refine ih dels (mergeInto cur a)
        (fun c' hc' => ha c' (List.mem_cons_of_mem _ hc')) hd ?_ c hc
      rcases mergeInto_change_type cur a with hm | ⟨hcd, -, -⟩
      · rw [hm]; exact hcur
      · rw [hcur] at hcd; simp at hcd
    · simp only [mergeGo, if_neg h] at hc
      rcases List.mem_cons.mp hc with rfl | hc
      · rw [hcur]; simp
      · exact ih dels a (fun c' hc' => ha c' (List.mem_cons_of_mem _ hc')) hd
          (ha a (List.mem_cons_self _ _)) c hc

/-- Over an all-zero table the merged backtracker output contains no
Modified change, for arbitrary inputs: chronologically every Added operation
precedes every Deleted one, so the promotion rule never fires. -/
lemma merge_backtrack_zero_no_modified (tbl : Nat → Nat → Nat) (oh mh : List String)
    (htbl : ∀ i' j', tbl i' j' = 0) (fuel i j : Nat) :
    ∀ c ∈ merge_adjacent_changes ((backtrackAux tbl oh mh fuel i j).reverse),
      c.change_type ≠ ChangeType.Modified := by
  obtain ⟨dels, adds, heq, hd, ha⟩ := backtrackAux_zero_shape tbl oh mh htbl fuel i j
  rw [heq, List.reverse_append]
  cases hrev : adds.reverse with
  | nil =>
    simp only [List.nil_append]
    cases hrevd : dels.reverse with
    | nil => intro c hc; simp [merge_adjacent_changes] at hc
    | cons d0 ds =>
      intro c hc
      simp only [merge_adjacent_changes] at hc
      have hdmem : ∀ x ∈ d0 :: ds, x.change_type = ChangeType.Deleted := by
        intro x hx
        apply hd
        rw [← List.mem_reverse, hrevd]
        exact hx
      exact mergeGo_dels_no_modified ds d0
        (fun x hx => hdmem x (List.mem_cons_of_mem _ hx))
        (by rw [hdmem d0 (List.mem_cons_self _ _)]; simp) c hc
  | cons a0 as' =>
    intro c hc
    simp only [List.cons_append, merge_adjacent_changes] at hc
    have hamem : ∀ x ∈ a0 :: as', x.change_type = ChangeType.Added := by
      intro x hx
      apply ha
      rw [← List.mem_reverse, hrev]
      exact hx
    have hdmem : ∀ x ∈ dels.reverse, x.change_type = ChangeType.Deleted :=
      fun x hx => hd x (List.mem_reverse.mp hx)
    exact mergeGo_adds_dels_no_modified as' dels.reverse a0
      (fun x hx => hamem x (List.mem_cons_of_mem _ hx)) hdmem
      (hamem a0 (List.mem_cons_self _ _)) c hc

/-- At budget 0 `compute_diff` returns a result for every input pair and any
options: no Modified change arises, so the character stage (the only failure
point) is the identity. -/
lemma compute_diff_alwaysTimeout_isSome (ol ml : List String) (options : DiffOptions) :
    (compute_diff ol ml options alwaysTimeout).isSome := by
  simp only [compute_diff, backtrack_changes, hash_lines]
  by_cases hccs : options.compute_char_changes = true
  · rw [if_pos hccs]
    rw [compute_character_changes_id _ ol ml
      (merge_backtrack_zero_no_modified _ _ _
        (lcsTable_zero (preprocess_lines ol options) (preprocess_lines ml options)) _ _ _)]
    rfl
  · rw [if_neg hccs]
    rfl

/-- C4 (amended): if the timeout fires before every row (budget 0, oracle
`alwaysTimeout`) then (1) the DP table stays all-zero, (2) for every pair of
input line sequences and any options `compute_diff` still returns a result,
and (3) if moreover no preprocessed original line equals any preprocessed
modified line, that result is exactly the merge (per the Change Merger rules)
of the edit script listing every modified line as a single-unit Added
operation (in order, anchored at original index 0) followed by every original
line as a single-unit Deleted operation (in order, anchored at modified index
`|modified|`) — chronologically the Added operations precede the Deleted
ones. -/
theorem c4_timeout_degradation_amended :
    (∀ (xs ys : List String) (i j : Nat), lcsTable alwaysTimeout xs ys i j = 0) ∧
    (∀ (ol ml : List String) (options : DiffOptions),
      (compute_diff ol ml options alwaysTimeout).isSome) ∧
    (∀ (ol ml : List String) (options : DiffOptions),
      (∀ a ∈ preprocess_lines ol options, a ∉ preprocess_lines ml options) →
      compute_diff ol ml options alwaysTimeout =
        some (merge_adjacent_changes
          (((List.range ml.length).map
              fun mi => (⟨0, 0, mi, mi+1, ChangeType.Added, none⟩ : LineChange)) ++
            ((List.range ol.length).map fun oi =>
              (⟨oi, oi+1, ml.length, ml.length, ChangeType.Deleted, none⟩ : LineChange))))) := by
  refine ⟨fun xs ys i j => lcsTable_zero xs ys i j,
    fun ol ml options => compute_diff_alwaysTimeout_isSome ol ml options, ?_⟩
  intro ol ml options hno
  have hlen_o := preprocess_lines_length ol options
  have hlen_m := preprocess_lines_length ml options
  simp only [compute_diff, backtrack_changes, hash_lines]
  rw [c4_delPhase (lcsTable alwaysTimeout (preprocess_lines ol options) (preprocess_lines ml options))
      (preprocess_lines ol options) (preprocess_lines ml options)
      (preprocess_lines ol options).length
      ((preprocess_lines ol options).length + (preprocess_lines ml options).length)
      (le_refl _) (le_refl _) hno
      (lcsTable_zero (preprocess_lines ol options) (preprocess_lines ml options))]
  rw [List.reverse_append, List.reverse_reverse, List.reverse_reverse]
  rw [hlen_o, hlen_m]
  by_cases hccs : options.compute_char_changes = true
  · simp only [hccs, if_true]
    exact compute_character_changes_id _ ol ml (merge_script_no_modified ol.length ml.length)
  · simp only [Bool.not_eq_true] at hccs
    simp only [hccs, Bool.false_eq_true, if_false]

/-- C1: the claim predicts that original `["A"]`, modified `["B"]` (all
normalization options off) yields exactly one Modified change.  Evaluating
the code at this input instead yields two separate changes: after the
emitted list is reversed, the Added operation chronologically precedes the
Deleted one, so the Deleted-then-Added promotion rule of `should_merge`
never fires here. -/
theorem c1_modification_promotion_eval :
    compute_diff ["A"] ["B"] optsOff noTimeout =
      some [⟨0, 0, 0, 1, ChangeType.Added, none⟩, ⟨0, 1, 1, 1, ChangeType.Deleted, none⟩] := by
  decide

/-- C2: the claim says `compute_diff` (in particular `compute_char_diff`)
never underflows or fails.  On original `["ma", "b"]`, modified
`["b", "xy"]` with `compute_char_changes = true`, the merged Modified range
spans the texts `"ma\nb"` and `"b\nxy"`, and inside `compute_char_diff` the
flush on the matching newline computes `modified_length = j - ins_start`
with `j = 2 < ins_start = 3`: an unguarded `usize` underflow (`none` in the
model, a panic in a debug build). -/
theorem c2_char_diff_underflow_eval :
    compute_diff ["ma", "b"] ["b", "xy"] optsWithChar noTimeout = none ∧
    compute_char_diff "ma\nb" "b\nxy" = none := by
  exact ⟨by decide, by decide⟩

/-- C3: the claim says no emitted `CharChange` has both lengths zero.  On
original `["A", "B"]`, modified `["B", "C"]` with
`compute_char_changes = true`, the code emits the char changes `⟨0,0,0,0⟩`
and `⟨2,0,2,0⟩` — every one with `original_length = 0` and
`modified_length = 0` simultaneously, because the flush computes lengths as
`i - del_start` and `j - ins_start` where the starts are never below the
current indices. -/
theorem c3_char_change_zero_length_eval :
    compute_diff ["A", "B"] ["B", "C"] optsWithChar noTimeout =
      some [⟨0, 2, 0, 2, ChangeType.Modified, some [⟨0, 0, 0, 0⟩, ⟨2, 0, 2, 0⟩]⟩] := by
  decide

/-- C4 (counterexample): with original `["A"]`, modified `["A"]` and budget
0 the DP table is all-zero, yet the backtracker still consumes the matching
surrogates and `compute_diff` returns the empty list — which is not the
merge of any edit script in which the original line appears as a Deleted
operation and the modified line as an Added operation (the merge of either
order of those two single-unit atoms is nonempty). -/
theorem c4_timeout_script_counterexample :
    compute_diff ["A"] ["A"] optsOff alwaysTimeout = some [] ∧
    merge_adjacent_changes [⟨0, 1, 1, 1, ChangeType.Deleted, none⟩,
      ⟨0, 0, 0, 1, ChangeType.Added, none⟩] ≠ [] ∧
    merge_adjacent_changes [⟨0, 0, 0, 1, ChangeType.Added, none⟩,
      ⟨0, 1, 1, 1, ChangeType.Deleted, none⟩] ≠ [] := by
  exact ⟨by decide, by decide, by decide⟩

/-- Witness for C4 (amended) at original `["A"]`, modified `["B"]`: the
hypothesis of part (3) (no common preprocessed line) holds and the
zero-budget result is the merge of the script `[Added 0, Deleted 0]`, i.e.
one Added and one Deleted change; part (2) is also exercised at the
line-sharing pair `["A","B"]` vs `["B","C"]` with character changes on. -/
theorem c4_timeout_degradation_witness :
    (∀ a ∈ preprocess_lines ["A"] optsOff, a ∉ preprocess_lines ["B"] optsOff) ∧
    compute_diff ["A"] ["B"] optsOff alwaysTimeout =
      some [⟨0, 0, 0, 1, ChangeType.Added, none⟩, ⟨0, 1, 1, 1, ChangeType.Deleted, none⟩] ∧
    (compute_diff ["A", "B"] ["B", "C"] optsWithChar alwaysTimeout).isSome :=
  ⟨by decide,
    (c4_timeout_degradation_amended.2.2 ["A"] ["B"] optsOff (by decide)).trans (by decide),
    c4_timeout_degradation_amended.2.1 ["A", "B"] ["B", "C"] optsWithChar⟩

/-- C5: the two normalization scenarios behave as claimed (`ignore_case`
makes `["Hello"]` vs `["hello"]` empty; `ignore_whitespace` makes
`["  x"]` vs `["x"]` empty; with both flags set normalization trims first,
then case-folds, leaving interior whitespace untouched), but with both
options false each pair yields an Added and a Deleted change, not the
single Modified change the claim requires. -/
theorem c5_normalization_eval :
    compute_diff ["Hello"] ["hello"] optsIgnoreCase noTimeout = some [] ∧
    compute_diff ["  x"] ["x"] optsIgnoreWs noTimeout = some [] ∧
    compute_diff ["Hello"] ["hello"] optsOff noTimeout =
      some [⟨0, 0, 0, 1, ChangeType.Added, none⟩, ⟨0, 1, 1, 1, ChangeType.Deleted, none⟩] ∧
    compute_diff ["  x"] ["x"] optsOff noTimeout =
      some [⟨0, 0, 0, 1, ChangeType.Added, none⟩, ⟨0, 1, 1, 1, ChangeType.Deleted, none⟩] ∧
    (∀ s : String, preprocess_lines [s] optsBothNorm = [rustToLower (rustTrim s)]) ∧
    preprocess_lines ["  A b  C "] optsBothNorm = ["a b  c"] := by
  exact ⟨by decide, by decide, by decide, by decide, fun s => rfl, by decide⟩

/-- C6: the backtracker's walk follows exactly the specified fixed policy —
starting at `(M, N)`, consume silently on a match, otherwise emit a
single-unit Deleted operation when `i > 0` and (`j = 0` or
`table[i][j] = table[i-1][j]`), otherwise (`j > 0`) a single-unit Added
operation, terminating at `(0, 0)` — and `backtrack_changes` is the merge
of the reversal of that emitted list. -/
theorem c6_backtracker_policy :
    (∀ (tbl : Nat → Nat → Nat) (oh mh : List String) (fuel i j : Nat),
      backtrackAux tbl oh mh fuel i j =
        (backtrackPolicySpec tbl oh mh fuel i j).map specOpToChange) ∧
    (∀ (tbl : Nat → Nat → Nat) (ol ml oh mh : List String),
      backtrack_changes tbl ol ml oh mh =
        merge_adjacent_changes
          (((backtrackPolicySpec tbl oh mh (oh.length + mh.length)
              oh.length mh.length).map specOpToChange).reverse)) := by
  refine ⟨fun tbl oh mh fuel i j => backtrackAux_eq_policy tbl oh mh fuel i j, ?_⟩
  intro tbl ol ml oh mh
  unfold backtrack_changes
  rw [backtrackAux_eq_policy]

/-- C8 (counterexample): on original `["A","B","C","D"]`, modified
`["B","X","D","Y"]` the merger outputs two adjacent contiguous Modified
changes; running the merger again on that very output coalesces them into
one change, so the merger is not idempotent on its own output. -/
theorem c8_merge_idempotence_counterexample :
    compute_diff ["A", "B", "C", "D"] ["B", "X", "D", "Y"] optsOff noTimeout =
      some [⟨0, 2, 0, 2, ChangeType.Modified, none⟩, ⟨2, 4, 2, 4, ChangeType.Modified, none⟩] ∧
    merge_adjacent_changes [⟨0, 2, 0, 2, ChangeType.Modified, none⟩,
        ⟨2, 4, 2, 4, ChangeType.Modified, none⟩] =
      [⟨0, 4, 0, 4, ChangeType.Modified, none⟩] := by
  exact ⟨by decide, by decide⟩

/-- C8 (amended): no pair of adjacent changes in any merger output satisfies
the merge predicate unless both changes are Modified (the second having been
promoted from a Deleted accumulator); re-running the merger can therefore
differ from its output only by further coalescing adjacent contiguous
Modified pairs. -/
theorem c8_merge_output_stability_amended : ∀ cs : List LineChange,
    List.Chain' (fun a b => should_merge a b = true →
      a.change_type = ChangeType.Modified ∧ b.change_type = ChangeType.Modified)
      (merge_adjacent_changes cs) := by
  intro cs
  cases cs with
  | nil => simp [merge_adjacent_changes]
  | cons c rest => exact mergeGo_chain rest c

/-- Witness for C8 (amended) at the chronological atom list of the
counterexample diff: its merge output `[Modified(0,2,0,2), Modified(2,4,2,4)]`
satisfies the stability property (the one adjacent pair that satisfies the
merge predicate is a Modified/Modified pair). -/
theorem c8_merge_output_stability_witness :
    List.Chain' (fun a b => should_merge a b = true →
      a.change_type = ChangeType.Modified ∧ b.change_type = ChangeType.Modified)
      (merge_adjacent_changes [⟨0, 1, 0, 0, ChangeType.Deleted, none⟩,
        ⟨2, 2, 1, 2, ChangeType.Added, none⟩, ⟨2, 3, 2, 2, ChangeType.Deleted, none⟩,
        ⟨4, 4, 3, 4, ChangeType.Added, none⟩]) :=
  c8_merge_output_stability_amended _

/-- C9: the range renderer maps `(start, stop)` with `stop - start = 0` to
`"<start>,0"`, with `stop - start = 1` to `"<start+1>"`, and with
`stop > start` otherwise to `"<start+1>,<stop-start>"`. -/
theorem c9_format_range : ∀ (start stop : Nat),
    (stop = start → format_range start stop = toString start ++ ",0") ∧
    (stop = start + 1 → format_range start stop = toString (start + 1)) ∧
    (start + 1 < stop →
      format_range start stop = toString (start + 1) ++ "," ++ toString (stop - start)) := by
  intro start stop
  refine ⟨?_, ?_, ?_⟩
  · intro h
    subst h
    simp [format_range]
  · intro h
    subst h
    simp only [format_range]
    rw [show start + 1 - start = 1 from by omega]
    simp
  · intro h
    simp only [format_range]
    rw [if_neg (by omega), if_neg (by omega)]

/-- Witness for C9 at the inputs of the repository's own `test_format_range`
test. -/
theorem c9_format_range_witness :
    (format_range 0 0 = toString 0 ++ ",0") ∧
    (format_range 0 1 = toString (0 + 1)) ∧
    (5 + 1 < 10 ∧ format_range 5 10 = toString (5 + 1) ++ "," ++ toString (10 - 5)) :=
  ⟨(c9_format_range 0 0).1 rfl, (c9_format_range 0 1).2.1 rfl,
    by decide, (c9_format_range 5 10).2.2 (by decide)⟩

/-- Witness for C10 at original `["A"]`, modified `["B"]`: both returned
changes have well-formed in-bounds ranges and both slice extractions
succeed. -/
theorem c10_ranges_in_bounds_witness :
    compute_diff ["A"] ["B"] optsOff noTimeout =
      some [⟨0, 0, 0, 1, ChangeType.Added, none⟩, ⟨0, 1, 1, 1, ChangeType.Deleted, none⟩] ∧
    (∀ c ∈ [(⟨0, 0, 0, 1, ChangeType.Added, none⟩ : LineChange),
        ⟨0, 1, 1, 1, ChangeType.Deleted, none⟩],
      RangesOk 1 1 c ∧
        (get_line_range ["A"] c.original_start c.original_end).isSome ∧
        (get_line_range ["B"] c.modified_start c.modified_end).isSome) :=
  ⟨by decide,
    c10_ranges_in_bounds ["A"] ["B"] optsOff noTimeout
      [⟨0, 0, 0, 1, ChangeType.Added, none⟩, ⟨0, 1, 1, 1, ChangeType.Deleted, none⟩]
      (by decide)⟩
